import Mathlib

/-!
Shallow embedding of the `m24c64` EEPROM driver (`src/lib.rs`).

The driver exposes `write(address, data, delay)` and `read(address, data)`,
which chunk an arbitrary byte range at 32-byte page boundaries and issue one
raw transport transaction per chunk.  `write_raw` additionally retries a
failed transport write up to 10 times with a 1 ms delay between attempts.

The embedding below mirrors the source loops directly:

* `writeChunksGo a n i` / `readChunksGo a n i` — the `while i < address +
  data.len()` loops of `write` (lines 78-83) and `read` (lines 95-100),
  recording for each `write_raw` / `read_raw` call the triple
  `(chunk address, slice start, slice stop)` where the Rust code passes
  `data[(i - address)..(i - address + (32 - page_offset)).min(data.len())]`.
* `writeEGo E raw mem a data i` — the same `write` loop, threading a device
  memory `mem : Nat → Nat` and a raw-writer outcome `raw : Nat → List Nat →
  Option E` (with `none` = `Ok`); it returns the propagated result, the list
  of `(address, bytes)` raw calls actually issued, and the final memory.
  A successful raw write stores the bytes at their addresses (`store`),
  modelling a transport that latches written bytes.
* `readMemGo mem a n buf i` — the `read` loop over a fixed device memory,
  filling the caller's buffer `buf` position-wise as `read_raw` does.
* `retryGo E att i` — the retry loop of `write_raw` (lines 55-64): `att k`
  is the outcome of the k-th transport write attempt (`none` = `Ok`); the
  result pairs the propagated outcome with the number of `delay.delay_ms(1)`
  calls performed.
* `busAddr`, `cmdHeader`, `write_raw_txn`, `read_raw_txn` — the wire format
  built in `write_raw` (lines 44-57) and `read_raw` (lines 68-71):
  bus address `e_addr | 0x50`, then a big-endian two-byte memory address.
-/

namespace M24C64

/-- One iteration step of the pagination loops: from cursor `i` the Rust code
advances by `32 - page_offset` where `page_offset = i % 32`. -/
def nextCursor (i : Nat) : Nat := i + (32 - i % 32)

/-- The chunk sequence issued by `M24C64::write` (src/lib.rs lines 78-83):
each element is `(chunk address, slice start, slice stop)`, with the slice
bounds taken verbatim from
`data[(i - address)..(i - address + (32 - page_offset)).min(data.len())]`. -/
def writeChunksGo (a n i : Nat) : List (Nat × Nat × Nat) :=
  if i < a + n then
    (i, i - a, min (i - a + (32 - i % 32)) n) :: writeChunksGo a n (nextCursor i)
  else []
termination_by a + n - i
decreasing_by simp only [nextCursor]; omega

/-- Chunks of `M24C64::write a data` for `data` of length `n`. -/
def writeChunks (a n : Nat) : List (Nat × Nat × Nat) :=
  writeChunksGo a n a

/-- The chunk sequence issued by `M24C64::read` (src/lib.rs lines 95-100);
the loop body is textually the same computation as in `write`, with
`len = data.len()` bound before the loop. -/
def readChunksGo (a n i : Nat) : List (Nat × Nat × Nat) :=
  if i < a + n then
    (i, i - a, min (i - a + (32 - i % 32)) n) :: readChunksGo a n (nextCursor i)
  else []
termination_by a + n - i
decreasing_by simp only [nextCursor]; omega

/-- Chunks of `M24C64::read a data` for `data` of length `n`. -/
def readChunks (a n : Nat) : List (Nat × Nat × Nat) :=
  readChunksGo a n a

/-- Device-memory effect of one successful raw write: the transport stores
the written bytes at their addresses. -/
def store (mem : Nat → Nat) (addr : Nat) (bs : List Nat) : Nat → Nat :=
  fun x => if addr ≤ x ∧ x < addr + bs.length then bs.getD (x - addr) 0 else mem x

/-- The sub-slice `data[(i - a)..(i - a + (32 - page_offset)).min(data.len())]`
passed to `write_raw` by the chunk at cursor `i`. -/
def chunkBytes (data : List Nat) (a i : Nat) : List Nat :=
  (data.drop (i - a)).take (min (i - a + (32 - i % 32)) data.length - (i - a))

/-- The `M24C64::write` loop (src/lib.rs lines 76-85) with an explicit
raw-writer outcome `raw addr bytes : Option E` (`none` = `Ok`, `some e` =
the error surfaced by `write_raw` after retry exhaustion).  Returns
`(propagated result, raw calls issued, final device memory)`; the `?`
operator in the source stops the loop at the first failing chunk. -/
def writeEGo (E : Type) (raw : Nat → List Nat → Option E) (mem : Nat → Nat)
    (a : Nat) (data : List Nat) (i : Nat) :
    Option E × List (Nat × List Nat) × (Nat → Nat) :=
  if i < a + data.length then
    match raw i (chunkBytes data a i) with
    | some e => (some e, [(i, chunkBytes data a i)], mem)
    | none =>
      let r := writeEGo E raw (store mem i (chunkBytes data a i)) a data (nextCursor i)
      (r.1, (i, chunkBytes data a i) :: r.2.1, r.2.2)
  else (none, [], mem)
termination_by a + data.length - i
decreasing_by simp only [nextCursor]; omega

/-- `M24C64::write` acting on the device memory, with a transport whose
writes all succeed. -/
def writeMem (mem : Nat → Nat) (a : Nat) (data : List Nat) : Nat → Nat :=
  (writeEGo Unit (fun _ _ => none) mem a data a).2.2

/-- The `M24C64::read` loop (src/lib.rs lines 89-102) over device memory
`mem`, filling the caller's buffer: the chunk `read_raw i (&mut data[s..t])`
sets buffer position `x ∈ [s, t)` to the device byte at address
`i + (x - s)`. -/
def readMemGo (mem : Nat → Nat) (a n : Nat) (buf : Nat → Nat) (i : Nat) :
    Nat → Nat :=
  if i < a + n then
    readMemGo mem a n
      (fun x =>
        if i - a ≤ x ∧ x < min (i - a + (32 - i % 32)) n then
          mem (i + (x - (i - a)))
        else buf x)
      (nextCursor i)
  else buf
termination_by a + n - i
decreasing_by simp only [nextCursor]; omega

/-- `M24C64::read` into buffer `buf`. -/
def readMem (mem : Nat → Nat) (a n : Nat) (buf : Nat → Nat) : Nat → Nat :=
  readMemGo mem a n buf a

/-- First `n` cells of a buffer, as the list a caller observes. -/
def bufToList (buf : Nat → Nat) (n : Nat) : List Nat :=
  (List.range n).map buf

/-- The retry loop of `M24C64::write_raw` (src/lib.rs lines 55-64): `att k`
is the outcome of the k-th `i2c.write` attempt (`none` = `Ok`).  Result:
the propagated outcome paired with the number of `delay.delay_ms(1)` calls. -/
def retryGo (E : Type) (att : Nat → Option E) (i : Nat) : Option E × Nat :=
  match att i with
  | none => (none, 0)
  | some e =>
    if i < 10 then
      ((retryGo E att (i + 1)).1, (retryGo E att (i + 1)).2 + 1)
    else (some e, 0)
termination_by 10 - i
decreasing_by omega

/-- `write_raw` as seen from the transport: propagated outcome and number of
delay calls, starting from attempt counter `i = 0` as in the source. -/
def write_raw_retry (E : Type) (att : Nat → Option E) : Option E × Nat :=
  retryGo E att 0

/-- One transport transaction: a plain write, or a combined
write-then-read of `readLen` bytes. -/
inductive Txn where
  | write (bus : Nat) (payload : List Nat)
  | writeRead (bus : Nat) (payload : List Nat) (readLen : Nat)
deriving DecidableEq

/-- Bus address targeted by every transaction: `self.e_addr | 0x50`
(src/lib.rs lines 57 and 71). -/
def busAddr (e_addr : Nat) : Nat := e_addr ||| 0x50

/-- The two header bytes placed in `cmd_buf[0]` and `cmd_buf[1]`:
`(address >> 8) as u8` then `(address & 0xFF) as u8` (lines 44-45, 68-69). -/
def cmdHeader (address : Nat) : List Nat :=
  [(address >>> 8) % 256, address % 256]

/-- The transaction issued by each attempt of `M24C64::write_raw` (line 57):
`i2c.write(e_addr | 0x50, &cmd_buf[0..bytes.len() + 2])`, the buffer holding
the 2-byte header followed by the payload bytes. -/
def write_raw_txn (e_addr address : Nat) (bytes : List Nat) : Txn :=
  Txn.write (busAddr e_addr) (cmdHeader address ++ bytes)

/-- The single transaction issued by `M24C64::read_raw` (line 71):
`i2c.write_read(e_addr | 0x50, &cmd_buf[0..2], bytes)`. -/
def read_raw_txn (e_addr address len : Nat) : Txn :=
  Txn.writeRead (busAddr e_addr) (cmdHeader address) len

/-- `M24C64::read_raw` (src/lib.rs lines 67-72): exactly one combined
write-then-read transport operation whose outcome `res` is returned
unchanged; the pair records (result, transactions issued). -/
def read_rawE (E : Type) (e_addr address len : Nat) (res : Option E) :
    Option E × List Txn :=
  (res, [read_raw_txn e_addr address len])

/-- `chain a s n cs` — the chunk list `cs` tiles the data range `[s, n)`
consecutively: each chunk starts where the previous one stopped, is
non-empty, targets device address `a + start`, and the last one stops
exactly at `n`. -/
def chain (a : Nat) : Nat → Nat → List (Nat × Nat × Nat) → Prop
  | s, n, [] => s = n
  | s, n, c :: cs => c.1 = a + s ∧ c.2.1 = s ∧ s < c.2.2 ∧ chain a c.2.2 n cs

/-- Number of 32-byte page boundaries `b` (multiples of 32) with
`l < b < u`: the boundaries crossed by the byte interval `[l, u)`. -/
def multiplesIn (l : Nat) : Nat → Nat
  | 0 => 0
  | u + 1 => multiplesIn l u + (if l < u ∧ u % 32 = 0 then 1 else 0)

/-- Page boundaries crossed by the interval `[a, a + n)`. -/
def boundariesCrossed (a n : Nat) : Nat :=
  multiplesIn a (a + n)

/-! ### Basic unfolding lemmas -/

theorem writeChunksGo_nil (a n i : Nat) (h : a + n ≤ i) :
    writeChunksGo a n i = [] := by
  rw [writeChunksGo]
  simp [show ¬ i < a + n by omega]

theorem writeChunksGo_cons (a n i : Nat) (h : i < a + n) :
    writeChunksGo a n i =
      (i, i - a, min (i - a + (32 - i % 32)) n) :: writeChunksGo a n (nextCursor i) := by
  rw [writeChunksGo]
  simp [h]

theorem readChunksGo_eq_writeChunksGo (a n : Nat) :
    ∀ i, readChunksGo a n i = writeChunksGo a n i := by
  intro i
  induction i using readChunksGo.induct a n with
  | case1 i hlt ih =>
    rw [readChunksGo, writeChunksGo]
    simp only [if_pos hlt, ih]
  | case2 i hlt =>
    rw [readChunksGo, writeChunksGo]
    simp only [if_neg hlt]

/-! ### The chunks tile the requested range -/

theorem writeChunksGo_chain (a n : Nat) :
    ∀ i, a ≤ i → i ≤ a + n → chain a (i - a) n (writeChunksGo a n i) := by
  intro i
  induction i using writeChunksGo.induct a n with
  | case1 i hlt ih =>
    intro hai hub
    rw [writeChunksGo_cons a n i hlt]
    refine ⟨show i = a + (i - a) by omega, rfl,
      show i - a < min (i - a + (32 - i % 32)) n by omega, ?_⟩
    show chain a (min (i - a + (32 - i % 32)) n) n (writeChunksGo a n (nextCursor i))
    by_cases hc : i + (32 - i % 32) ≤ a + n
    · have h1 : min (i - a + (32 - i % 32)) n = nextCursor i - a := by
        simp only [nextCursor]; omega
      rw [h1]
      exact ih (by simp only [nextCursor]; omega) (by simp only [nextCursor]; omega)
    · have h1 : min (i - a + (32 - i % 32)) n = n := by omega
      rw [h1, writeChunksGo_nil a n _ (by simp only [nextCursor]; omega)]
      simp [chain]
  | case2 i hlt =>
    intro hai hub
    rw [writeChunksGo_nil a n i (by omega)]
    simp only [chain]
    omega

/-! ### Chunk length facts -/

theorem writeChunksGo_ne_nil (a n i : Nat) (h : i < a + n) :
    writeChunksGo a n i ≠ [] := by
  rw [writeChunksGo_cons a n i h]
  exact List.cons_ne_nil _ _

/-- From a page-aligned cursor, every chunk except the last is a full page. -/
theorem writeChunksGo_dropLast (a n : Nat) :
    ∀ i, a ≤ i → i % 32 = 0 →
      ∀ c ∈ (writeChunksGo a n i).dropLast, c.2.2 - c.2.1 = 32 := by
  intro i
  induction i using writeChunksGo.induct a n with
  | case1 i hlt ih =>
    intro hai hmod c hc
    rw [writeChunksGo_cons a n i hlt] at hc
    by_cases hrest : writeChunksGo a n (nextCursor i) = []
    · rw [hrest, List.dropLast_single] at hc
      exact absurd hc (List.not_mem_nil c)
    · have hlt' : nextCursor i < a + n := by
        by_contra hge
        exact hrest (writeChunksGo_nil a n _ (by omega))
      rw [List.dropLast_cons_of_ne_nil hrest, List.mem_cons] at hc
      rcases hc with hc | hc
      · subst hc
        show min (i - a + (32 - i % 32)) n - (i - a) = 32
        simp only [nextCursor] at hlt'
        omega
      · exact ih (by simp only [nextCursor]; omega)
          (by simp only [nextCursor]; omega) c hc
  | case2 i hlt =>
    intro hai hmod c hc
    rw [writeChunksGo_nil a n i (by omega)] at hc
    exact absurd hc (List.not_mem_nil c)

/-- Every chunk's slice is within the data, at most a page long, at the
cursor's own address, and ends at or before the cursor's page end. -/
theorem writeChunksGo_bounds (a n : Nat) :
    ∀ i, a ≤ i →
      ∀ c ∈ writeChunksGo a n i,
        c.2.1 ≤ c.2.2 ∧ c.2.2 ≤ n ∧ c.1 = a + c.2.1 ∧
          c.2.2 - c.2.1 ≤ 32 - c.1 % 32 := by
  intro i
  induction i using writeChunksGo.induct a n with
  | case1 i hlt ih =>
    intro hai c hc
    rw [writeChunksGo_cons a n i hlt, List.mem_cons] at hc
    rcases hc with hc | hc
    · subst hc
      refine ⟨show i - a ≤ min (i - a + (32 - i % 32)) n by omega,
        show min (i - a + (32 - i % 32)) n ≤ n by omega,
        show i = a + (i - a) by omega, ?_⟩
      show min (i - a + (32 - i % 32)) n - (i - a) ≤ 32 - i % 32
      omega
    · exact ih (by simp only [nextCursor]; omega) c hc
  | case2 i hlt =>
    intro hai c hc
    rw [writeChunksGo_nil a n i (by omega)] at hc
    exact absurd hc (List.not_mem_nil c)

/-! ### Counting page boundaries -/

theorem multiplesIn_of_le (l : Nat) : ∀ u, u ≤ l → multiplesIn l u = 0 := by
  intro u
  induction u with
  | zero => intro _; rfl
  | succ u ih =>
    intro h
    simp only [multiplesIn]
    rw [ih (by omega), if_neg (by omega)]

theorem multiplesIn_next (i : Nat) :
    ∀ u, multiplesIn i u =
      multiplesIn (nextCursor i) u + (if nextCursor i < u then 1 else 0) := by
  intro u
  induction u with
  | zero => simp [multiplesIn, nextCursor]
  | succ u ih =>
    simp only [multiplesIn, nextCursor] at ih ⊢
    rw [ih]
    split_ifs <;> omega

/-- Chunk count: from cursor `i` still inside the range, the loop issues one
raw write per page boundary crossed by `[i, a + n)`, plus one. -/
theorem writeChunksGo_length (a n : Nat) :
    ∀ i, a ≤ i → i < a + n →
      (writeChunksGo a n i).length = multiplesIn i (a + n) + 1 := by
  intro i
  induction i using writeChunksGo.induct a n with
  | case1 i hlt ih =>
    intro hai _
    rw [writeChunksGo_cons a n i hlt]
    simp only [List.length_cons]
    have hnext := multiplesIn_next i (a + n)
    by_cases hc : nextCursor i < a + n
    · rw [if_pos hc] at hnext
      rw [ih (by simp only [nextCursor]; omega) hc]
      omega
    · rw [if_neg hc] at hnext
      rw [writeChunksGo_nil a n _ (by omega)]
      have h0 := multiplesIn_of_le (nextCursor i) (a + n) (by omega)
      simp only [List.length_nil]
      omega
  | case2 i hlt =>
    intro hai h
    omega

/-! ### Unfolding the effectful write loop -/

theorem writeEGo_nil (E : Type) (raw : Nat → List Nat → Option E)
    (mem : Nat → Nat) (a : Nat) (data : List Nat) (i : Nat)
    (h : a + data.length ≤ i) :
    writeEGo E raw mem a data i = (none, [], mem) := by
  rw [writeEGo]
  simp [show ¬ i < a + data.length by omega]

theorem writeEGo_err (E : Type) (raw : Nat → List Nat → Option E)
    (mem : Nat → Nat) (a : Nat) (data : List Nat) (i : Nat) (e : E)
    (h : i < a + data.length) (he : raw i (chunkBytes data a i) = some e) :
    writeEGo E raw mem a data i = (some e, [(i, chunkBytes data a i)], mem) := by
  rw [writeEGo]
  simp [h, he]

theorem writeEGo_ok (E : Type) (raw : Nat → List Nat → Option E)
    (mem : Nat → Nat) (a : Nat) (data : List Nat) (i : Nat)
    (h : i < a + data.length) (hok : raw i (chunkBytes data a i) = none) :
    writeEGo E raw mem a data i =
      ((writeEGo E raw (store mem i (chunkBytes data a i)) a data (nextCursor i)).1,
       (i, chunkBytes data a i) ::
         (writeEGo E raw (store mem i (chunkBytes data a i)) a data (nextCursor i)).2.1,
       (writeEGo E raw (store mem i (chunkBytes data a i)) a data (nextCursor i)).2.2) := by
  rw [writeEGo]
  simp [h, hok]

theorem readMemGo_nil (mem : Nat → Nat) (a n : Nat) (buf : Nat → Nat) (i : Nat)
    (h : a + n ≤ i) : readMemGo mem a n buf i = buf := by
  rw [readMemGo]
  simp [show ¬ i < a + n by omega]

theorem readMemGo_cons (mem : Nat → Nat) (a n : Nat) (buf : Nat → Nat) (i : Nat)
    (h : i < a + n) :
    readMemGo mem a n buf i =
      readMemGo mem a n
        (fun x =>
          if i - a ≤ x ∧ x < min (i - a + (32 - i % 32)) n then
            mem (i + (x - (i - a)))
          else buf x)
        (nextCursor i) := by
  rw [readMemGo]
  simp [h]

/-! ### The slice passed to each raw write -/

theorem chunkBytes_length (data : List Nat) (a i : Nat) (hai : a ≤ i)
    (h : i < a + data.length) :
    (chunkBytes data a i).length =
      min (i - a + (32 - i % 32)) data.length - (i - a) := by
  simp only [chunkBytes, List.length_take, List.length_drop]
  omega

theorem chunkBytes_getD (data : List Nat) (a i x : Nat) (hai : a ≤ i)
    (hi : i < a + data.length) (hx : i ≤ x)
    (hlt : x - i < (chunkBytes data a i).length) :
    (chunkBytes data a i).getD (x - i) 0 = data.getD (x - a) 0 := by
  have hlen := chunkBytes_length data a i hai hi
  rw [hlen] at hlt
  rw [chunkBytes, List.getD_eq_getElem?_getD, List.getElem?_take_of_lt hlt,
    List.getElem?_drop, show i - a + (x - i) = x - a from by omega,
    ← List.getD_eq_getElem?_getD]

/-! ### Projections of one loop step -/

theorem writeEGo_ok_fst (E : Type) (raw : Nat → List Nat → Option E)
    (mem : Nat → Nat) (a : Nat) (data : List Nat) (i : Nat)
    (h : i < a + data.length) (hok : raw i (chunkBytes data a i) = none) :
    (writeEGo E raw mem a data i).1 =
      (writeEGo E raw (store mem i (chunkBytes data a i)) a data (nextCursor i)).1 := by
  rw [writeEGo_ok E raw mem a data i h hok]

theorem writeEGo_ok_calls (E : Type) (raw : Nat → List Nat → Option E)
    (mem : Nat → Nat) (a : Nat) (data : List Nat) (i : Nat)
    (h : i < a + data.length) (hok : raw i (chunkBytes data a i) = none) :
    (writeEGo E raw mem a data i).2.1 =
      (i, chunkBytes data a i) ::
        (writeEGo E raw (store mem i (chunkBytes data a i)) a data (nextCursor i)).2.1 := by
  rw [writeEGo_ok E raw mem a data i h hok]

theorem writeEGo_ok_mem (E : Type) (raw : Nat → List Nat → Option E)
    (mem : Nat → Nat) (a : Nat) (data : List Nat) (i : Nat)
    (h : i < a + data.length) (hok : raw i (chunkBytes data a i) = none) :
    (writeEGo E raw mem a data i).2.2 =
      (writeEGo E raw (store mem i (chunkBytes data a i)) a data (nextCursor i)).2.2 := by
  rw [writeEGo_ok E raw mem a data i h hok]

/-! ### Memory written by a fully successful write -/

theorem writeEGo_perfect_mem (a : Nat) (data : List Nat) :
    ∀ m i mem, a + data.length - i ≤ m → a ≤ i → ∀ x,
      (writeEGo Unit (fun _ _ => none) mem a data i).2.2 x =
        if i ≤ x ∧ x < a + data.length then data.getD (x - a) 0 else mem x := by
  intro m
  induction m with
  | zero =>
    intro i mem hm hai x
    rw [writeEGo_nil Unit _ mem a data i (by omega), if_neg (by omega)]
  | succ m ih =>
    intro i mem hm hai x
    by_cases h : i < a + data.length
    · have hbl : i + (chunkBytes data a i).length =
          min (nextCursor i) (a + data.length) := by
        rw [chunkBytes_length data a i hai h]
        simp only [nextCursor]
        omega
      rw [writeEGo_ok_mem Unit _ mem a data i h rfl,
        ih (nextCursor i) (store mem i (chunkBytes data a i))
          (by simp only [nextCursor]; omega) (by simp only [nextCursor]; omega) x]
      simp only [nextCursor] at hbl ⊢
      by_cases hc1 : i + (32 - i % 32) ≤ x ∧ x < a + data.length
      · rw [if_pos hc1, if_pos ⟨by omega, hc1.2⟩]
      · rw [if_neg hc1]
        simp only [store]
        by_cases hc2 : i ≤ x ∧ x < i + (chunkBytes data a i).length
        · rw [if_pos hc2,
            chunkBytes_getD data a i x hai h hc2.1 (by omega),
            if_pos ⟨by omega, by omega⟩]
        · rw [if_neg hc2, if_neg (by omega)]
    · rw [writeEGo_nil Unit _ mem a data i (by omega), if_neg (by omega)]

theorem writeEGo_perfect_fst (a : Nat) (data : List Nat) :
    ∀ m i mem, a + data.length - i ≤ m →
      (writeEGo Unit (fun _ _ => none) mem a data i).1 = none := by
  intro m
  induction m with
  | zero =>
    intro i mem hm
    rw [writeEGo_nil Unit _ mem a data i (by omega)]
  | succ m ih =>
    intro i mem hm
    by_cases h : i < a + data.length
    · rw [writeEGo_ok_fst Unit _ mem a data i h rfl]
      exact ih (nextCursor i) _ (by simp only [nextCursor]; omega)
    · rw [writeEGo_nil Unit _ mem a data i (by omega)]

/-! ### Buffer filled by the paginated read -/

theorem readMemGo_spec (mem : Nat → Nat) (a n : Nat) :
    ∀ m i buf, a + n - i ≤ m → a ≤ i → ∀ x,
      readMemGo mem a n buf i x =
        if i - a ≤ x ∧ x < n then mem (a + x) else buf x := by
  intro m
  induction m with
  | zero =>
    intro i buf hm hai x
    rw [readMemGo_nil mem a n buf i (by omega), if_neg (by omega)]
  | succ m ih =>
    intro i buf hm hai x
    by_cases h : i < a + n
    · rw [readMemGo_cons mem a n buf i h,
        ih (nextCursor i) _ (by simp only [nextCursor]; omega)
          (by simp only [nextCursor]; omega) x]
      simp only [nextCursor]
      by_cases hc1 : i + (32 - i % 32) - a ≤ x ∧ x < n
      · rw [if_pos hc1, if_pos ⟨by omega, hc1.2⟩]
      · rw [if_neg hc1]
        by_cases hc2 : i - a ≤ x ∧ x < min (i - a + (32 - i % 32)) n
        · rw [if_pos hc2, show i + (x - (i - a)) = a + x from by omega,
            if_pos ⟨hc2.1, by omega⟩]
        · rw [if_neg hc2, if_neg (by omega)]
    · rw [readMemGo_nil mem a n buf i (by omega), if_neg (by omega)]

theorem bufToList_eq (data : List Nat) (f : Nat → Nat)
    (h : ∀ x, x < data.length → f x = data.getD x 0) :
    bufToList f data.length = data := by
  apply List.ext_getElem
  · simp [bufToList]
  · intro k h1 h2
    simp only [bufToList, List.getElem_map, List.getElem_range]
    rw [h k h2]
    exact List.getD_eq_getElem data 0 h2

/-! ### Retry loop of `write_raw` -/

theorem retryGo_all_fail (E : Type) (att : Nat → Option E) (e : Nat → E)
    (hatt : ∀ k, k ≤ 10 → att k = some (e k)) :
    ∀ d i, i + d = 10 → retryGo E att i = (some (e 10), d) := by
  intro d
  induction d with
  | zero =>
    intro i h
    obtain rfl : i = 10 := by omega
    rw [retryGo]
    simp only [hatt 10 (by omega)]
    simp
  | succ d ih =>
    intro i h
    rw [retryGo]
    simp only [hatt i (by omega)]
    rw [if_pos (show i < 10 by omega), ih (i + 1) (by omega)]

theorem retryGo_succeeds (E : Type) (att : Nat → Option E) (s : Nat)
    (hs : s ≤ 10) (hfail : ∀ k, k < s → att k ≠ none) (hok : att s = none) :
    ∀ d i, i + d = s → retryGo E att i = (none, d) := by
  intro d
  induction d with
  | zero =>
    intro i h
    obtain rfl : i = s := by omega
    rw [retryGo]
    simp only [hok]
  | succ d ih =>
    intro i h
    obtain ⟨e, he⟩ : ∃ e, att i = some e :=
      Option.ne_none_iff_exists'.mp (hfail i (by omega))
    rw [retryGo]
    simp only [he]
    rw [if_pos (show i < 10 by omega), ih (i + 1) (by omega)]

/-! ### Error propagation through the paginated write -/

theorem writeEGo_error_spec (E : Type) (raw : Nat → List Nat → Option E)
    (a : Nat) (data : List Nat) (e : E) :
    ∀ m i mem, a + data.length - i ≤ m →
      (writeEGo E raw mem a data i).1 = some e →
      ∃ pre c,
        (writeEGo E raw mem a data i).2.1 = pre ++ [c] ∧
        (∀ p ∈ pre, raw p.1 p.2 = none) ∧
        raw c.1 c.2 = some e ∧
        (writeEGo E raw mem a data i).2.2 =
          pre.foldl (fun mm p => store mm p.1 p.2) mem ∧
        (writeEGo E raw mem a data i).2.1 =
          ((writeEGo E (fun _ _ => none) mem a data i).2.1).take (pre.length + 1) := by
  intro m
  induction m with
  | zero =>
    intro i mem hm hr
    rw [writeEGo_nil E raw mem a data i (by omega)] at hr
    exact absurd hr (by simp)
  | succ m ih =>
    intro i mem hm hr
    by_cases h : i < a + data.length
    · cases hres : raw i (chunkBytes data a i) with
      | some e' =>
        rw [writeEGo_err E raw mem a data i e' h hres] at hr ⊢
        obtain rfl : e' = e := by
          simpa using hr
        refine ⟨[], (i, chunkBytes data a i), by simp, by simp, hres, by simp, ?_⟩
        rw [writeEGo_ok_calls E (fun _ _ => none) mem a data i h rfl]
        simp
      | none =>
        rw [writeEGo_ok_fst E raw mem a data i h hres] at hr
        obtain ⟨pre, c, h1, h2, h3, h4, h5⟩ :=
          ih (nextCursor i) (store mem i (chunkBytes data a i))
            (by simp only [nextCursor]; omega) hr
        refine ⟨(i, chunkBytes data a i) :: pre, c, ?_, ?_, h3, ?_, ?_⟩
        · rw [writeEGo_ok_calls E raw mem a data i h hres, h1]
          simp
        · intro p hp
          rcases List.mem_cons.mp hp with hp | hp
          · subst hp
            exact hres
          · exact h2 p hp
        · rw [writeEGo_ok_mem E raw mem a data i h hres, h4]
          simp [List.foldl_cons]
        · rw [writeEGo_ok_calls E raw mem a data i h hres,
            writeEGo_ok_calls E (fun _ _ => none) mem a data i h rfl]
          simp only [List.length_cons, List.take_succ_cons]
          rw [h5]
    · rw [writeEGo_nil E raw mem a data i (by omega)] at hr
      exact absurd hr (by simp)

/-! ## Claim theorems -/

/-- Claim C1: for every address `a` and byte list `data`, with a transport
that stores written bytes at their addresses and returns them on read,
`write(a, data, delay)` succeeds (propagates no error) and a subsequent
`read(a, buf)` with `buf` of length `data.length` leaves the buffer equal
to `data`. -/
theorem write_read_roundtrip (mem buf : Nat → Nat) (a : Nat) (data : List Nat) :
    (writeEGo Unit (fun _ _ => none) mem a data a).1 = none ∧
    bufToList (readMem (writeMem mem a data) a data.length buf) data.length = data := by
  constructor
  · exact writeEGo_perfect_fst a data (a + data.length) a mem (by omega)
  · apply bufToList_eq
    intro x hx
    rw [readMem, readMemGo_spec (writeMem mem a data) a data.length
        (a + data.length) a buf (by omega) (le_refl a) x,
      if_pos ⟨by omega, hx⟩, writeMem,
      writeEGo_perfect_mem a data (a + data.length) a mem (by omega) (le_refl a) (a + x),
      if_pos ⟨by omega, by omega⟩]
    have hxx : a + x - a = x := by omega
    rw [hxx]

/-- Claim C2: for a non-empty write the first chunk has length
`min (32 - a % 32) n`, every chunk between the first and the last is exactly
32 bytes, and for `a = 30`, `n = 5` exactly two chunks are issued:
`data[0..2)` at address 30 and `data[2..5)` at address 32. -/
theorem paginated_write_chunk_shape (a n : Nat) (h : 1 ≤ n) :
    (writeChunks a n).head? = some (a, 0, min (32 - a % 32) n) ∧
    (∀ c ∈ ((writeChunks a n).drop 1).dropLast, c.2.2 - c.2.1 = 32) ∧
    writeChunks 30 5 = [(30, 0, 2), (32, 2, 5)] := by
  refine ⟨?_, ?_, by simp [writeChunks, writeChunksGo, nextCursor]⟩
  · rw [writeChunks, writeChunksGo_cons a n a (by omega)]
    simp only [List.head?_cons, Nat.sub_self, Nat.zero_add]
  · rw [writeChunks, writeChunksGo_cons a n a (by omega)]
    simp only [List.drop_succ_cons, List.drop_zero]
    exact writeChunksGo_dropLast a n (nextCursor a)
      (by simp only [nextCursor]; omega) (by simp only [nextCursor]; omega)

/-- Witness for C2 at `a = 30`, `n = 5`. -/
theorem paginated_write_chunk_shape_witness :
    (writeChunks 30 5).head? = some (30, 0, min (32 - 30 % 32) 5) ∧
    (∀ c ∈ ((writeChunks 30 5).drop 1).dropLast, c.2.2 - c.2.1 = 32) ∧
    writeChunks 30 5 = [(30, 0, 2), (32, 2, 5)] :=
  paginated_write_chunk_shape 30 5 (by norm_num)

/-- Claim C3: every raw-write call receives a byte slice whose length plus
the 2-byte address header fits in the 34-byte `cmd_buf` (so the indexing
`cmd_buf[2..bytes.len() + 2]` stays in bounds), and no call's address range
crosses a 32-byte page boundary (`address % 32 + length ≤ 32`). -/
theorem raw_write_buffer_safety (a : Nat) (data : List Nat) :
    ∀ c ∈ writeChunks a data.length,
      ((data.drop c.2.1).take (c.2.2 - c.2.1)).length + 2 ≤ 34 ∧
      c.1 % 32 + (c.2.2 - c.2.1) ≤ 32 := by
  intro c hc
  obtain ⟨hb1, hb2, hb3, hb4⟩ :=
    writeChunksGo_bounds a data.length a (le_refl a) c hc
  constructor
  · simp only [List.length_take, List.length_drop]
    omega
  · omega

/-- Witness for C3: the first chunk of a 5-byte write at address 30. -/
theorem raw_write_buffer_safety_witness :
    (([3, 4, 5, 6, 7].drop (30, 0, 2).2.1).take
        ((30, 0, 2).2.2 - (30, 0, 2).2.1)).length + 2 ≤ 34 ∧
    (30, 0, 2).1 % 32 + ((30, 0, 2).2.2 - (30, 0, 2).2.1) ≤ 32 :=
  raw_write_buffer_safety 30 [3, 4, 5, 6, 7] (30, 0, 2)
    (by simp [writeChunks, writeChunksGo, nextCursor])

/-- Claim C4: if every one of the 11 attempts fails, `write_raw` returns the
transport error of the last (11th) attempt after exactly 10 delay calls; if
the attempt with index `s` (the `(s+1)`-th attempt, `s ≤ 10`) is the first
to succeed, `write_raw` returns success after exactly `s` delay calls. -/
theorem write_raw_retry_protocol (E : Type) (att : Nat → Option E)
    (e : Nat → E) (s : Nat) :
    ((∀ k, k ≤ 10 → att k = some (e k)) →
      write_raw_retry E att = (some (e 10), 10)) ∧
    (s ≤ 10 → (∀ k, k < s → att k ≠ none) → att s = none →
      write_raw_retry E att = (none, s)) := by
  constructor
  · intro hatt
    exact retryGo_all_fail E att e hatt 10 0 (by norm_num)
  · intro hs hfail hok
    exact retryGo_succeeds E att s hs hfail hok s 0 (by omega)

/-- Witness for C4: all 11 attempts fail with error `k` at attempt `k`
(10 delays, error of attempt 10 returned); first success at attempt 3
(3 delays, success returned). -/
theorem write_raw_retry_protocol_witness :
    write_raw_retry Nat (fun k => some k) = (some 10, 10) ∧
    write_raw_retry Nat (fun k => if k < 3 then some 0 else none) = (none, 3) :=
  ⟨(write_raw_retry_protocol Nat (fun k => some k) (fun k => k) 0).1
      (fun _ _ => rfl),
   (write_raw_retry_protocol Nat (fun k => if k < 3 then some 0 else none)
      (fun _ => 0) 3).2 (by norm_num) (by decide) (by norm_num)⟩

/-- Counterexample for C5 as stated: at address 0 with length 32 the
interval `[0, 32)` crosses zero page boundaries, yet `write` issues one
raw-write call, so the count does not equal (the ceiling of) the number of
boundaries crossed. -/
theorem raw_write_count_counterexample :
    (writeChunks 0 32).length = 1 ∧ boundariesCrossed 0 32 = 0 ∧
    (writeChunks 0 32).length ≠ boundariesCrossed 0 32 := by
  have h : writeChunks 0 32 = [(0, 0, 32)] := by
    simp [writeChunks, writeChunksGo, nextCursor]
  refine ⟨by rw [h]; rfl, by decide, by rw [h]; decide⟩

/-- Claim C5 (amended): for every non-empty write the number of raw-write
invocations equals the number of page boundaries crossed by `[a, a + n)`
plus one, and no invocation's payload length exceeds 32 bytes. -/
theorem raw_write_count_amended (a n : Nat) (h : 1 ≤ n) :
    (writeChunks a n).length = boundariesCrossed a n + 1 ∧
    ∀ c ∈ writeChunks a n, c.2.2 - c.2.1 ≤ 32 := by
  constructor
  · rw [writeChunks, writeChunksGo_length a n a (le_refl a) (by omega),
      boundariesCrossed]
  · intro c hc
    obtain ⟨hb1, hb2, hb3, hb4⟩ := writeChunksGo_bounds a n a (le_refl a) c hc
    omega

/-- Witness for C5 (amended) at `a = 30`, `n = 5`: two invocations, one
boundary crossed. -/
theorem raw_write_count_amended_witness :
    (writeChunks 30 5).length = boundariesCrossed 30 5 + 1 ∧
    ∀ c ∈ writeChunks 30 5, c.2.2 - c.2.1 ≤ 32 :=
  raw_write_count_amended 30 5 (by norm_num)

/-- Claim C6: every transaction of `write_raw` and `read_raw` targets bus
address `0x50 | e_addr` (which for `e_addr ≤ 7` is `0x50 + e_addr`, in
`[0x50, 0x57]`), and begins with the 2-byte big-endian memory address, high
byte `address >> 8` first and low byte `address & 0xFF` second; for
addresses below `2^16` the two header bytes reconstruct the address. -/
theorem wire_format (e_addr address len : Nat) (bytes : List Nat)
    (he : e_addr ≤ 7) :
    busAddr e_addr = 0x50 + e_addr ∧
    0x50 ≤ busAddr e_addr ∧ busAddr e_addr ≤ 0x57 ∧
    write_raw_txn e_addr address bytes =
      Txn.write (0x50 + e_addr) ([address / 256 % 256, address % 256] ++ bytes) ∧
    read_raw_txn e_addr address len =
      Txn.writeRead (0x50 + e_addr) [address / 256 % 256, address % 256] len ∧
    (address < 65536 → 256 * (address / 256 % 256) + address % 256 = address) := by
  have hb : busAddr e_addr = 0x50 + e_addr := by
    rw [busAddr]
    interval_cases e_addr <;> decide
  have hh : cmdHeader address = [address / 256 % 256, address % 256] := by
    rw [cmdHeader, Nat.shiftRight_eq_div_pow]
  refine ⟨hb, by omega, by omega, ?_, ?_, ?_⟩
  · rw [write_raw_txn, hb, hh]
  · rw [read_raw_txn, hb, hh]
  · intro hlt
    omega

/-- Witness for C6 at `e_addr = 3`, `address = 0x1234`. -/
theorem wire_format_witness :
    busAddr 3 = 0x50 + 3 ∧
    0x50 ≤ busAddr 3 ∧ busAddr 3 ≤ 0x57 ∧
    write_raw_txn 3 0x1234 [1, 2] =
      Txn.write (0x50 + 3) ([0x1234 / 256 % 256, 0x1234 % 256] ++ [1, 2]) ∧
    read_raw_txn 3 0x1234 7 =
      Txn.writeRead (0x50 + 3) [0x1234 / 256 % 256, 0x1234 % 256] 7 ∧
    (0x1234 < 65536 → 256 * (0x1234 / 256 % 256) + 0x1234 % 256 = 0x1234) :=
  wire_format 3 0x1234 7 [1, 2] (by norm_num)

/-- Claim C7: a zero-length `write` issues no chunks, leaves the device
memory untouched and succeeds, and a zero-length `read` issues no chunks
and leaves the caller's buffer untouched. -/
theorem zero_length_noop (E : Type) (raw : Nat → List Nat → Option E)
    (a : Nat) (mem buf : Nat → Nat) :
    writeChunks a 0 = [] ∧ readChunks a 0 = [] ∧
    writeEGo E raw mem a [] a = (none, [], mem) ∧
    readMemGo mem a 0 buf a = buf := by
  refine ⟨?_, ?_, ?_, ?_⟩
  · exact writeChunksGo_nil a 0 a (by omega)
  · rw [readChunks, readChunksGo_eq_writeChunksGo a 0 a]
    exact writeChunksGo_nil a 0 a (by omega)
  · exact writeEGo_nil E raw mem a [] a (by simp)
  · exact readMemGo_nil mem a 0 buf a (by omega)

/-- Claim C8: `read_raw` performs exactly one combined write-then-read
transaction and returns the transport outcome unchanged; and when the
paginated write fails, the calls issued are the successful chunks followed
by the single failing chunk (a prefix of the all-success call sequence, so
no further raw writes happen), the failing chunk's transport error is
returned unchanged, and the memory keeps the successful chunks' effects
(no rollback). -/
theorem error_propagation (E : Type) (raw : Nat → List Nat → Option E)
    (mem : Nat → Nat) (a : Nat) (data : List Nat) (e : E)
    (hr : (writeEGo E raw mem a data a).1 = some e) :
    (∀ (e_addr address len : Nat) (res : Option E),
      (read_rawE E e_addr address len res).1 = res ∧
      (read_rawE E e_addr address len res).2.length = 1) ∧
    ∃ pre c,
      (writeEGo E raw mem a data a).2.1 = pre ++ [c] ∧
      (∀ p ∈ pre, raw p.1 p.2 = none) ∧
      raw c.1 c.2 = some e ∧
      (writeEGo E raw mem a data a).2.2 =
        pre.foldl (fun mm p => store mm p.1 p.2) mem ∧
      (writeEGo E raw mem a data a).2.1 =
        ((writeEGo E (fun _ _ => none) mem a data a).2.1).take (pre.length + 1) :=
  ⟨fun _ _ _ _ => ⟨rfl, rfl⟩,
   writeEGo_error_spec E raw a data e (a + data.length) a mem (by omega) hr⟩

/-- Witness for C8: a transport whose every write fails with error 7, on a
one-byte write at address 0. -/
theorem error_propagation_witness :
    (∀ (e_addr address len : Nat) (res : Option Nat),
      (read_rawE Nat e_addr address len res).1 = res ∧
      (read_rawE Nat e_addr address len res).2.length = 1) ∧
    ∃ pre c,
      (writeEGo Nat (fun _ _ => some 7) (fun _ => 0) 0 [9] 0).2.1 = pre ++ [c] ∧
      (∀ p ∈ pre, (fun _ _ => some 7 : Nat → List Nat → Option Nat) p.1 p.2 = none) ∧
      (fun _ _ => some 7 : Nat → List Nat → Option Nat) c.1 c.2 = some 7 ∧
      (writeEGo Nat (fun _ _ => some 7) (fun _ => 0) 0 [9] 0).2.2 =
        pre.foldl (fun mm p => store mm p.1 p.2) (fun _ => 0) ∧
      (writeEGo Nat (fun _ _ => some 7) (fun _ => 0) 0 [9] 0).2.1 =
        ((writeEGo Nat (fun _ _ => none) (fun _ => 0) 0 [9] 0).2.1).take
          (pre.length + 1) :=
  error_propagation Nat (fun _ _ => some 7) (fun _ => 0) 0 [9] 7
    (by rw [writeEGo_err Nat (fun _ _ => some 7) (fun _ => 0) 0 [9] 0 7
        (by norm_num) rfl])

/-- Claim C9: the paginated read produces exactly the same chunk sequence
as the paginated write for the same address and length, and a read of
length 40 at address 16 issues two chunks: 16 bytes at address 16 and 24
bytes at address 32. -/
theorem read_write_decomposition (a n : Nat) :
    (∀ i, readChunksGo a n i = writeChunksGo a n i) ∧
    readChunks a n = writeChunks a n ∧
    readChunks 16 40 = [(16, 0, 16), (32, 16, 40)] := by
  refine ⟨readChunksGo_eq_writeChunksGo a n, ?_,
    by simp [readChunks, readChunksGo, nextCursor]⟩
  rw [readChunks, writeChunks, readChunksGo_eq_writeChunksGo a n a]

/-- Claim C10: both pagination loops terminate — each iteration advances the
cursor by `32 - i % 32 ≥ 1` (so `writeChunks`/`readChunks` are total
functions) — and the chunks partition the data range `[0, n)` consecutively
without gap or overlap, each chunk targeting address `a + start`. -/
theorem pagination_partition (a n : Nat) :
    (∀ i, i < nextCursor i) ∧
    chain a 0 n (writeChunks a n) ∧ chain a 0 n (readChunks a n) := by
  have hw := writeChunksGo_chain a n a (le_refl a) (by omega)
  rw [Nat.sub_self] at hw
  refine ⟨fun i => by simp only [nextCursor]; omega, hw, ?_⟩
  rw [readChunks, readChunksGo_eq_writeChunksGo a n a]
  exact hw

end M24C64
